import Mathlib

/-!
Verification of the token / key-rotation core of `mts_server`
(`src/auth/mod.rs`), as a shallow embedding in Lean.

Modelling conventions:
* `u64` timestamps and bytes are `Nat` (the only additions performed,
  `now + 2 * TOKEN_DURATION`, are nowhere near `2 ^ 64` for realistic
  timestamps, so wrap-around is irrelevant); a byte is a `Nat` together
  with the side condition `< 256` where it matters (base64).
* `Uuid` is modelled as an opaque `Nat`.
* `VecDeque<Key>` is a `List Key` whose head is the front of the deque and
  whose last element is its back.
* The ambient wall clock (`timestamp_now()`) is passed explicitly as a
  `now : Nat` argument.
* `OsRng.fill_bytes` is modelled by an explicit byte source
  `rng : Nat → Nat` (index into the 32-byte buffer ↦ byte).
* HMAC-SHA256 (`SimpleHmac::<Sha256>`) is an abstract parameter
  `mac : List Nat → List Nat → List Nat` (key bytes, message ↦ tag);
  `new_from_slice` never fails for HMAC, so `mac` is total.
* CBOR serialization of `Claim` (`serde_cbor::to_vec` / `from_slice`) is a
  pair of abstract parameters `ser : Claim → List Nat` and
  `deser : List Nat → Option Claim`; serializing this small struct never
  fails, so `ser` is total.
* base64 with the `STANDARD` engine (padded, canonical) is implemented
  concretely below, since the token wire format depends on it.
* Strings are `List Char`; the Rust `s.split(".")` is `splitOnDot`.
-/

/-- Model of `const TOKEN_DURATION: u64 = 2 * 24 * 60 * 60;`. -/
def TOKEN_DURATION : Nat := 2 * 24 * 60 * 60

/-- Model of `Key { bytes: [u8; 32], expires: u64 }`; the 32-byte buffer is a list. -/
structure Key where
  bytes : List Nat
  expires : Nat
deriving DecidableEq

/-- Model of `Key::generate(expires)`: a key whose 32 bytes come from the random
source `rng` (each reduced to a byte) and whose expiry is `expires`. -/
def Key.generate (rng : Nat → Nat) (expires : Nat) : Key :=
  { bytes := (List.range 32).map (fun i => rng i % 256), expires := expires }

/-- Model of `Secret { keys: VecDeque<Key> }`, head = front, last = back. -/
structure Secret where
  keys : List Key
deriving DecidableEq

/-- Model of `Secret::new()`: the empty store. -/
def Secret.new : Secret := { keys := [] }

/-- Model of `Claim { id: Uuid, expires: u64, is_admin: bool }`. -/
structure Claim where
  id : Nat
  expires : Nat
  is_admin : Bool
deriving DecidableEq

/-- Value of the base64 `STANDARD` alphabet at index `n` (A–Z, a–z, 0–9,
`+`, `/`); total, with every index ≥ 63 mapped to `/`. -/
def sextetChar (n : Nat) : Char :=
  if n < 26 then Char.ofNat (65 + n)
  else if n < 52 then Char.ofNat (97 + (n - 26))
  else if n < 62 then Char.ofNat (48 + (n - 52))
  else if n = 62 then '+'
  else '/'

/-- Inverse of the base64 `STANDARD` alphabet; `none` on any character
outside it (including `=`, which is handled by the chunk decoder). -/
def charSextet (c : Char) : Option Nat :=
  if 'A' ≤ c ∧ c ≤ 'Z' then some (c.toNat - 65)
  else if 'a' ≤ c ∧ c ≤ 'z' then some (c.toNat - 97 + 26)
  else if '0' ≤ c ∧ c ≤ '9' then some (c.toNat - 48 + 52)
  else if c = '+' then some 62
  else if c = '/' then some 63
  else none

/-- Padded base64 encoding (`STANDARD.encode`) of a byte list. -/
def b64encode : List Nat → List Char
  | [] => []
  | [a] => [sextetChar (a / 4), sextetChar (a % 4 * 16), '=', '=']
  | [a, b] =>
      [sextetChar (a / 4), sextetChar (a % 4 * 16 + b / 16),
       sextetChar (b % 16 * 4), '=']
  | a :: b :: c :: rest =>
      sextetChar (a / 4) :: sextetChar (a % 4 * 16 + b / 16) ::
      sextetChar (b % 16 * 4 + c / 64) :: sextetChar (c % 64) :: b64encode rest

/-- Padded, canonical base64 decoding (`STANDARD.decode`): input length must
be a multiple of 4, `=` may appear only as final padding, and the unused
trailing bits of a padded chunk must be zero. -/
def b64decode : List Char → Option (List Nat)
  | [] => some []
  | c0 :: c1 :: c2 :: c3 :: rest =>
      match charSextet c0, charSextet c1 with
      | some s0, some s1 =>
          if c2 = '=' then
            if c3 = '=' ∧ rest = [] ∧ s1 % 16 = 0 then
              some [s0 * 4 + s1 / 16]
            else none
          else
            match charSextet c2 with
            | some s2 =>
                if c3 = '=' then
                  if rest = [] ∧ s2 % 4 = 0 then
                    some [s0 * 4 + s1 / 16, s1 % 16 * 16 + s2 / 4]
                  else none
                else
                  match charSextet c3 with
                  | some s3 =>
                      match b64decode rest with
                      | some tail =>
                          some ((s0 * 4 + s1 / 16) :: (s1 % 16 * 16 + s2 / 4) ::
                                (s2 % 4 * 64 + s3) :: tail)
                      | none => none
                  | none => none
            | none => none
      | _, _ => none
  | _ => none

/-- Model of the Rust `s.split(".")` iterator: splits at every `'.'`, keeping empty pieces, and
always yields at least one piece. -/
def splitOnDot : List Char → List (List Char)
  | [] => [[]]
  | c :: cs =>
      if c = '.' then [] :: splitOnDot cs
      else
        match splitOnDot cs with
        | p :: ps => (c :: p) :: ps
        | [] => [[c]]

/-- The `while let Some(key) = secret.keys.front()` loop of `from_token`:
pop keys from the front while `key.expires <= current_timestamp`. -/
def pruneFront (now : Nat) : List Key → List Key
  | [] => []
  | k :: ks => if k.expires ≤ now then pruneFront now ks else k :: ks

/-- The `for key in secret.keys.iter().rev()` loop of `from_token`: `valid`
becomes true as soon as the MAC of some key over the claim bytes equals the
signature (the scan runs back-to-front and stops at the first match). -/
def anyKeyValid (mac : List Nat → List Nat → List Nat)
    (claim_raw signature_raw : List Nat) (keys : List Key) : Bool :=
  keys.reverse.any fun k => decide (mac k.bytes claim_raw = signature_raw)

/-- Model of `Claim::from_token(s, secret)`. Returns the decode result together with
the store as the call leaves it (the source takes `&mut Secret`; the prune
loop runs once the token has split into exactly two base64 parts; the
locals `keys` and `valid` of the source are inlined). -/
def from_token (mac : List Nat → List Nat → List Nat)
    (deser : List Nat → Option Claim) (now : Nat)
    (s : List Char) (secret : Secret) : Option Claim × Secret :=
  match splitOnDot s with
  | p1 :: p2 :: rest =>
      match b64decode p1, b64decode p2 with
      | some claim_raw, some signature_raw =>
          match rest with
          | _ :: _ => (none, secret)
          | [] =>
              match deser claim_raw with
              | none => (none, { keys := pruneFront now secret.keys })
              | some claim =>
                  if claim.expires < now then
                    (none, { keys := pruneFront now secret.keys })
                  else if anyKeyValid mac claim_raw signature_raw
                      (pruneFront now secret.keys) then
                    (some claim, { keys := pruneFront now secret.keys })
                  else (none, { keys := pruneFront now secret.keys })
      | _, _ => (none, secret)
  | _ => (none, secret)

/-- Lines 129–142 of `to_token`: the key sequence after the `has_key` check
and the possible `push_back` of a freshly generated key (`has_key` is true
exactly when the back key exists and `key.expires >= self.expires`). -/
def rotate (rng : Nat → Nat) (now : Nat) (claim : Claim)
    (keys : List Key) : List Key :=
  match keys.getLast? with
  | some key =>
      if key.expires ≥ claim.expires then keys
      else keys ++ [Key.generate rng (now + 2 * TOKEN_DURATION)]
  | none => keys ++ [Key.generate rng (now + 2 * TOKEN_DURATION)]

/-- Model of `Claim::to_token(self, secret)`. Returns the token (`none` only in the
unreachable empty-store-after-append case, where the source `unwrap`s)
together with the store as the call leaves it. -/
def to_token (mac : List Nat → List Nat → List Nat) (ser : Claim → List Nat)
    (rng : Nat → Nat) (now : Nat) (claim : Claim) (secret : Secret) :
    Option (List Char) × Secret :=
  match (rotate rng now claim secret.keys).getLast? with
  | none => (none, { keys := rotate rng now claim secret.keys })
  | some key =>
      (some (b64encode (ser claim) ++ '.' :: b64encode (mac key.bytes (ser claim))),
       { keys := rotate rng now claim secret.keys })

/-! ### Concrete instantiations of the abstract parameters, used by the
witness and counterexample theorems: a toy MAC, a toy serializer that is
exact on small claims, and a constant byte source. -/

def cMac (k m : List Nat) : List Nat := (k ++ m).map fun x => x % 256

def cMacApp (k m : List Nat) : List Nat := k ++ m

def cSer (c : Claim) : List Nat :=
  [c.id % 256, c.expires % 256, if c.is_admin then 1 else 0]

def cDeser : List Nat → Option Claim
  | [i, e, a] => some { id := i, expires := e, is_admin := a == 1 }
  | _ => none

def cRng : Nat → Nat := fun _ => 0

/-! ### Properties of the base64 codec -/

theorem charSextet_sextetChar : ∀ s < 64, charSextet (sextetChar s) = some s := by
  decide

theorem sextetChar_ne_dot : ∀ s < 64, sextetChar s ≠ '.' := by
  decide

theorem sextetChar_ne_pad : ∀ s < 64, sextetChar s ≠ '=' := by
  decide

theorem b64encode_no_dot :
    ∀ bs : List Nat, (∀ b ∈ bs, b < 256) → '.' ∉ b64encode bs := by
  intro bs
  induction bs using b64encode.induct with
  | case1 => intro _; simp [b64encode]
  | case2 a =>
      intro hb
      have ha : a < 256 := hb a (by simp)
      simp only [b64encode, List.mem_cons, List.not_mem_nil, or_false]
      push_neg
      exact ⟨(sextetChar_ne_dot _ (by omega)).symm,
        (sextetChar_ne_dot _ (by omega)).symm, by decide, by decide⟩
  | case3 a b =>
      intro hb
      have ha : a < 256 := hb a (by simp)
      have hb' : b < 256 := hb b (by simp)
      simp only [b64encode, List.mem_cons, List.not_mem_nil, or_false]
      push_neg
      exact ⟨(sextetChar_ne_dot _ (by omega)).symm,
        (sextetChar_ne_dot _ (by omega)).symm,
        (sextetChar_ne_dot _ (by omega)).symm, by decide⟩
  | case4 a b c rest ih =>
      intro hb
      have ha : a < 256 := hb a (by simp)
      have hb' : b < 256 := hb b (by simp)
      have hc : c < 256 := hb c (by simp)
      have hrest : '.' ∉ b64encode rest := ih fun x hx => hb x (by simp [hx])
      simp only [b64encode, List.mem_cons]
      push_neg
      exact ⟨(sextetChar_ne_dot _ (by omega)).symm,
        (sextetChar_ne_dot _ (by omega)).symm,
        (sextetChar_ne_dot _ (by omega)).symm,
        (sextetChar_ne_dot _ (by omega)).symm, hrest⟩

theorem b64decode_encode :
    ∀ bs : List Nat, (∀ b ∈ bs, b < 256) → b64decode (b64encode bs) = some bs := by
  intro bs
  induction bs using b64encode.induct with
  | case1 => intro _; rfl
  | case2 a =>
      intro hb
      have ha : a < 256 := hb a (by simp)
      simp only [b64encode, b64decode,
        charSextet_sextetChar (a / 4) (by omega),
        charSextet_sextetChar (a % 4 * 16) (by omega)]
      rw [if_pos trivial, if_pos ⟨trivial, trivial, by omega⟩]
      have : a / 4 * 4 + a % 4 * 16 / 16 = a := by omega
      rw [this]
  | case3 a b =>
      intro hb
      have ha : a < 256 := hb a (by simp)
      have hb' : b < 256 := hb b (by simp)
      simp only [b64encode, b64decode,
        charSextet_sextetChar (a / 4) (by omega),
        charSextet_sextetChar (a % 4 * 16 + b / 16) (by omega),
        charSextet_sextetChar (b % 16 * 4) (by omega)]
      rw [if_neg (sextetChar_ne_pad _ (by omega)), if_pos trivial,
        if_pos ⟨trivial, by omega⟩]
      have h1 : a / 4 * 4 + (a % 4 * 16 + b / 16) / 16 = a := by omega
      have h2 : (a % 4 * 16 + b / 16) % 16 * 16 + b % 16 * 4 / 4 = b := by omega
      rw [h1, h2]
  | case4 a b c rest ih =>
      intro hb
      have ha : a < 256 := hb a (by simp)
      have hb' : b < 256 := hb b (by simp)
      have hc : c < 256 := hb c (by simp)
      have hrest : b64decode (b64encode rest) = some rest :=
        ih fun x hx => hb x (by simp [hx])
      simp only [b64encode, b64decode,
        charSextet_sextetChar (a / 4) (by omega),
        charSextet_sextetChar (a % 4 * 16 + b / 16) (by omega),
        charSextet_sextetChar (b % 16 * 4 + c / 64) (by omega),
        charSextet_sextetChar (c % 64) (by omega)]
      rw [if_neg (sextetChar_ne_pad _ (by omega)),
        if_neg (sextetChar_ne_pad _ (by omega)), hrest]
      have h1 : a / 4 * 4 + (a % 4 * 16 + b / 16) / 16 = a := by omega
      have h2 : (a % 4 * 16 + b / 16) % 16 * 16 + (b % 16 * 4 + c / 64) / 4 = b := by
        omega
      have h3 : (b % 16 * 4 + c / 64) % 4 * 64 + c % 64 = c := by omega
      rw [h1, h2, h3]

/-! ### Properties of token splitting -/

theorem splitOnDot_no_dot :
    ∀ a : List Char, '.' ∉ a → splitOnDot a = [a] := by
  intro a
  induction a with
  | nil => intro _; rfl
  | cons c cs ih =>
      intro h
      have hc : ¬c = '.' := fun heq => h (heq ▸ List.mem_cons_self c cs)
      rw [splitOnDot, if_neg hc, ih fun hm => h (List.mem_cons_of_mem c hm)]

theorem splitOnDot_append :
    ∀ (a b : List Char), '.' ∉ a →
      splitOnDot (a ++ '.' :: b) = a :: splitOnDot b := by
  intro a
  induction a with
  | nil => intro b _; rw [List.nil_append, splitOnDot, if_pos rfl]
  | cons c cs ih =>
      intro b h
      have hc : ¬c = '.' := fun heq => h (heq ▸ List.mem_cons_self c cs)
      rw [List.cons_append, splitOnDot, if_neg hc,
        ih b fun hm => h (List.mem_cons_of_mem c hm)]

theorem splitOnDot_token {e1 e2 : List Char} (h1 : '.' ∉ e1) (h2 : '.' ∉ e2) :
    splitOnDot (e1 ++ '.' :: e2) = [e1, e2] := by
  rw [splitOnDot_append e1 e2 h1, splitOnDot_no_dot e2 h2]

/-! ### Properties of the prune loop -/

theorem pruneFront_suffix (now : Nat) :
    ∀ ks : List Key, pruneFront now ks <:+ ks := by
  intro ks
  induction ks with
  | nil => exact List.suffix_refl []
  | cons k ks ih =>
      rw [pruneFront]
      by_cases h : k.expires ≤ now
      · rw [if_pos h]
        exact ih.trans (List.suffix_cons k ks)
      · rw [if_neg h]

theorem mem_pruneFront_of_getLast (now : Nat) :
    ∀ (ks : List Key) (k : Key), ks.getLast? = some k → now < k.expires →
      k ∈ pruneFront now ks := by
  intro ks
  induction ks with
  | nil => intro k h _; simp at h
  | cons k0 ks ih =>
      intro k h hk
      cases ks with
      | nil =>
          simp at h
          subst h
          rw [pruneFront, if_neg (by omega)]
          exact List.mem_cons_self k0 []
      | cons k1 ks' =>
          rw [List.getLast?_cons_cons] at h
          rw [pruneFront]
          by_cases h0 : k0.expires ≤ now
          · rw [if_pos h0]
            exact ih k h hk
          · rw [if_neg h0]
            exact List.mem_cons_of_mem k0 (List.mem_of_getLast?_eq_some h)

theorem pruneFront_unexpired (now : Nat) :
    ∀ ks : List Key, ks.Pairwise (fun a b => a.expires ≤ b.expires) →
      ∀ k ∈ pruneFront now ks, now < k.expires := by
  intro ks
  induction ks with
  | nil => intro _ k hk; simp [pruneFront] at hk
  | cons k0 ks ih =>
      intro hp k hk
      rw [List.pairwise_cons] at hp
      rw [pruneFront] at hk
      by_cases h0 : k0.expires ≤ now
      · rw [if_pos h0] at hk
        exact ih hp.2 k hk
      · rw [if_neg h0] at hk
        rcases List.mem_cons.mp hk with h | h
        · subst h; omega
        · have := hp.1 k h
          omega

/-! ### Properties of the verification scan -/

theorem anyKeyValid_of_mem {mac : List Nat → List Nat → List Nat}
    {claim_raw signature_raw : List Nat} {keys : List Key} {k : Key}
    (hk : k ∈ keys) (hm : mac k.bytes claim_raw = signature_raw) :
    anyKeyValid mac claim_raw signature_raw keys = true := by
  rw [anyKeyValid, List.any_eq_true]
  exact ⟨k, List.mem_reverse.mpr hk, decide_eq_true hm⟩

theorem anyKeyValid_eq_false {mac : List Nat → List Nat → List Nat}
    {claim_raw signature_raw : List Nat} {keys : List Key}
    (h : ∀ k ∈ keys, mac k.bytes claim_raw ≠ signature_raw) :
    anyKeyValid mac claim_raw signature_raw keys = false := by
  rw [anyKeyValid, List.any_eq_false]
  intro k hk
  simp only [decide_eq_true_eq]
  exact h k (List.mem_reverse.mp hk)

/-! ### Properties of the rotation step inside `to_token` -/

theorem rotate_eq (rng : Nat → Nat) (now : Nat) (claim : Claim)
    (keys : List Key) :
    rotate rng now claim keys =
      match keys.getLast? with
      | none => keys ++ [Key.generate rng (now + 2 * TOKEN_DURATION)]
      | some k =>
          if k.expires < claim.expires then
            keys ++ [Key.generate rng (now + 2 * TOKEN_DURATION)]
          else keys := by
  cases h : keys.getLast? with
  | none => simp only [rotate, h]
  | some k =>
      simp only [rotate, h]
      by_cases hk : k.expires ≥ claim.expires
      · rw [if_pos hk, if_neg (by omega)]
      · rw [if_neg hk, if_pos (by omega)]

theorem rotate_getLast (rng : Nat → Nat) (now : Nat) (claim : Claim)
    (keys : List Key) :
    ∃ k, (rotate rng now claim keys).getLast? = some k ∧
      (claim.expires ≤ k.expires ∨
        k = Key.generate rng (now + 2 * TOKEN_DURATION)) := by
  cases h : keys.getLast? with
  | none =>
      simp only [rotate, h]
      exact ⟨Key.generate rng (now + 2 * TOKEN_DURATION),
        List.getLast?_concat keys, Or.inr rfl⟩
  | some k =>
      simp only [rotate, h]
      by_cases hk : k.expires ≥ claim.expires
      · rw [if_pos hk]
        exact ⟨k, h, Or.inl hk⟩
      · rw [if_neg hk]
        exact ⟨Key.generate rng (now + 2 * TOKEN_DURATION),
          List.getLast?_concat keys, Or.inr rfl⟩

theorem to_token_snd (mac : List Nat → List Nat → List Nat)
    (ser : Claim → List Nat) (rng : Nat → Nat) (now : Nat)
    (claim : Claim) (secret : Secret) :
    (to_token mac ser rng now claim secret).2 =
      { keys := rotate rng now claim secret.keys } := by
  rw [to_token]
  cases (rotate rng now claim secret.keys).getLast? <;> rfl

theorem to_token_fst (mac : List Nat → List Nat → List Nat)
    (ser : Claim → List Nat) (rng : Nat → Nat) (now : Nat)
    (claim : Claim) (secret : Secret) :
    (to_token mac ser rng now claim secret).1 =
      (rotate rng now claim secret.keys).getLast?.map fun k =>
        b64encode (ser claim) ++ '.' :: b64encode (mac k.bytes (ser claim)) := by
  rw [to_token]
  cases (rotate rng now claim secret.keys).getLast? <;> rfl

/-! ### Computation lemmas for `from_token` -/

theorem from_token_wf (mac : List Nat → List Nat → List Nat)
    (deser : List Nat → Option Claim) (now : Nat)
    (claim_raw signature_raw : List Nat) (secret : Secret)
    (hcr : ∀ b ∈ claim_raw, b < 256) (hsr : ∀ b ∈ signature_raw, b < 256) :
    from_token mac deser now
        (b64encode claim_raw ++ '.' :: b64encode signature_raw) secret =
      match deser claim_raw with
      | none => (none, { keys := pruneFront now secret.keys })
      | some claim =>
          if claim.expires < now then
            (none, { keys := pruneFront now secret.keys })
          else if anyKeyValid mac claim_raw signature_raw
              (pruneFront now secret.keys) then
            (some claim, { keys := pruneFront now secret.keys })
          else (none, { keys := pruneFront now secret.keys }) := by
  simp only [from_token,
    splitOnDot_token (b64encode_no_dot claim_raw hcr)
      (b64encode_no_dot signature_raw hsr),
    b64decode_encode claim_raw hcr, b64decode_encode signature_raw hsr]

theorem from_token_store (mac : List Nat → List Nat → List Nat)
    (deser : List Nat → Option Claim) (now : Nat) (tok : List Char)
    (secret : Secret) :
    (from_token mac deser now tok secret).2 = secret ∨
      (from_token mac deser now tok secret).2 =
        { keys := pruneFront now secret.keys } := by
  simp only [from_token]
  repeat' split
  all_goals first | exact Or.inl rfl | exact Or.inr rfl

theorem from_token_some {mac : List Nat → List Nat → List Nat}
    {deser : List Nat → Option Claim} {now : Nat} {tok : List Char}
    {secret : Secret} {c : Claim}
    (h : (from_token mac deser now tok secret).1 = some c) :
    now ≤ c.expires ∧ ∃ claim_raw signature_raw,
      anyKeyValid mac claim_raw signature_raw
        (pruneFront now secret.keys) = true := by
  simp only [from_token] at h
  split at h
  · split at h
    · split at h
      · simp at h
      · split at h
        · simp at h
        · split at h
          · simp at h
          · split at h
            · rename_i hv
              simp at h
              subst h
              exact ⟨by omega, _, _, hv⟩
            · simp at h
    · simp at h
  · simp at h

/-! ### The claims -/

/-- Claim C1: for every Claim whose `expires` is in the future, encoding it
with `to_token` and then decoding the resulting token with `from_token`
against the same store (time unchanged) succeeds and returns the original
Claim. -/
theorem round_trip (mac : List Nat → List Nat → List Nat)
    (ser : Claim → List Nat) (deser : List Nat → Option Claim)
    (rng : Nat → Nat) (now : Nat) (claim : Claim) (secret : Secret)
    (hfuture : now < claim.expires)
    (hser : ∀ b ∈ ser claim, b < 256)
    (hmac : ∀ k m b, b ∈ mac k m → b < 256)
    (hdeser : deser (ser claim) = some claim) :
    ∃ tok, (to_token mac ser rng now claim secret).1 = some tok ∧
      (from_token mac deser now tok
        (to_token mac ser rng now claim secret).2).1 = some claim := by
  obtain ⟨k, hk, hor⟩ := rotate_getLast rng now claim secret.keys
  have hkexp : now < k.expires := by
    rcases hor with h | h
    · omega
    · rw [h]
      show now < now + 2 * TOKEN_DURATION
      have : TOKEN_DURATION = 172800 := by decide
      omega
  refine ⟨b64encode (ser claim) ++ '.' :: b64encode (mac k.bytes (ser claim)),
    ?_, ?_⟩
  · rw [to_token_fst, hk]
    rfl
  · rw [to_token_snd,
      from_token_wf mac deser now (ser claim) (mac k.bytes (ser claim)) _
        hser (fun b hb => hmac _ _ b hb)]
    simp only [hdeser]
    rw [if_neg (by omega)]
    have hmem : k ∈ pruneFront now (rotate rng now claim secret.keys) :=
      mem_pruneFront_of_getLast now (rotate rng now claim secret.keys) k hk hkexp
    rw [anyKeyValid_of_mem hmem rfl]
    simp

/-- Claim C1 witness. -/
theorem round_trip_witness :
    ∃ tok, (to_token cMac cSer cRng 10
        { id := 1, expires := 20, is_admin := false } Secret.new).1 = some tok ∧
      (from_token cMac cDeser 10 tok
        (to_token cMac cSer cRng 10
          { id := 1, expires := 20, is_admin := false } Secret.new).2).1 =
      some { id := 1, expires := 20, is_admin := false } :=
  round_trip cMac cSer cDeser cRng 10
    { id := 1, expires := 20, is_admin := false } Secret.new
    (by decide) (by decide)
    (fun k m b hb => by
      simp only [cMac, List.mem_map] at hb
      obtain ⟨x, -, hx⟩ := hb
      omega)
    (by decide)

/-- Claim C2: a token signed under a key `K1` that is still unexpired keeps
decoding after a newer key `K2` has been appended: the scan tries every
retained key, not only the newest. -/
theorem rotation_overlap (mac : List Nat → List Nat → List Nat)
    (deser : List Nat → Option Claim) (now : Nat) (K1 K2 : Key)
    (claim_raw : List Nat) (c : Claim)
    (hK1 : now < K1.expires)
    (hcr : ∀ b ∈ claim_raw, b < 256)
    (hsr : ∀ b ∈ mac K1.bytes claim_raw, b < 256)
    (hdeser : deser claim_raw = some c)
    (hc : now ≤ c.expires) :
    (from_token mac deser now
      (b64encode claim_raw ++ '.' :: b64encode (mac K1.bytes claim_raw))
      { keys := [K1, K2] }).1 = some c := by
  rw [from_token_wf mac deser now claim_raw (mac K1.bytes claim_raw) _ hcr hsr]
  simp only [hdeser]
  rw [if_neg (by omega)]
  have hprune : pruneFront now ({ keys := [K1, K2] } : Secret).keys = [K1, K2] := by
    show pruneFront now [K1, K2] = [K1, K2]
    rw [pruneFront, if_neg (by omega)]
  rw [hprune, anyKeyValid_of_mem (List.mem_cons_self K1 [K2]) rfl]
  simp

/-- Claim C2 witness. -/
theorem rotation_overlap_witness :
    (from_token cMac cDeser 10
      (b64encode (cSer { id := 1, expires := 15, is_admin := false }) ++
        '.' :: b64encode
          (cMac [1] (cSer { id := 1, expires := 15, is_admin := false })))
      { keys := [{ bytes := [1], expires := 20 },
                 { bytes := [2], expires := 30 }] }).1 =
      some { id := 1, expires := 15, is_admin := false } :=
  rotation_overlap cMac cDeser 10 { bytes := [1], expires := 20 }
    { bytes := [2], expires := 30 }
    (cSer { id := 1, expires := 15, is_admin := false })
    { id := 1, expires := 15, is_admin := false }
    (by decide) (by decide) (by decide) (by decide) (by decide)

/-- Claim C5 (amended): `from_token` never returns a claim whose `expires`
is strictly before the current time (the source rejects on
`claim.expires < current_timestamp`, so `expires = now` is accepted). -/
theorem decode_unexpired (mac : List Nat → List Nat → List Nat)
    (deser : List Nat → Option Claim) (now : Nat) (tok : List Char)
    (secret : Secret) (c : Claim)
    (h : (from_token mac deser now tok secret).1 = some c) :
    now ≤ c.expires :=
  (from_token_some h).1

/-- Claim C5 counterexample: a freshly signed token whose embedded Claim has
`expires = now` (hence `expires ≤ now`) decodes successfully, refuting
"rejects every token whose embedded Claim has expires ≤ the current
time". -/
theorem claim_at_now_accepted_cex :
    (from_token cMac cDeser 10
      (b64encode (cSer { id := 1, expires := 10, is_admin := false }) ++
        '.' :: b64encode
          (cMac [5] (cSer { id := 1, expires := 10, is_admin := false })))
      { keys := [{ bytes := [5], expires := 20 }] }).1 =
      some { id := 1, expires := 10, is_admin := false } ∧
    ({ id := 1, expires := 10, is_admin := false } : Claim).expires ≤ 10 := by
  decide

/-- Claim C5 witness. -/
theorem decode_unexpired_witness :
    10 ≤ ({ id := 1, expires := 10, is_admin := false } : Claim).expires ∧
    (from_token cMac cDeser 10
      (b64encode (cSer { id := 1, expires := 10, is_admin := false }) ++
        '.' :: b64encode
          (cMac [5] (cSer { id := 1, expires := 10, is_admin := false })))
      { keys := [{ bytes := [5], expires := 20 }] }).1 =
      some { id := 1, expires := 10, is_admin := false } :=
  ⟨decode_unexpired cMac cDeser 10
      (b64encode (cSer { id := 1, expires := 10, is_admin := false }) ++
        '.' :: b64encode
          (cMac [5] (cSer { id := 1, expires := 10, is_admin := false })))
      { keys := [{ bytes := [5], expires := 20 }] }
      { id := 1, expires := 10, is_admin := false } (by decide),
    by decide⟩

/-- Claim C8: once `now ≥ K1.expires`, a well-formed token signed under `K1`
fails `from_token`, and `K1` is pruned from the store by the call (assuming
the store is ordered ascending by expiry — the documented store invariant —
a collision-free MAC, and retained key material distinct from that of `K1`). -/
theorem pruned_key_rejected (mac : List Nat → List Nat → List Nat)
    (deser : List Nat → Option Claim) (now : Nat) (K1 : Key)
    (claim_raw : List Nat) (secret : Secret)
    (hsorted : secret.keys.Pairwise fun a b => a.expires ≤ b.expires)
    (hexp : K1.expires ≤ now)
    (hcr : ∀ b ∈ claim_raw, b < 256)
    (hsr : ∀ b ∈ mac K1.bytes claim_raw, b < 256)
    (hinj : ∀ k1 k2 m, mac k1 m = mac k2 m → k1 = k2)
    (hfresh : ∀ k ∈ secret.keys, now < k.expires → k.bytes ≠ K1.bytes) :
    (from_token mac deser now
      (b64encode claim_raw ++ '.' :: b64encode (mac K1.bytes claim_raw))
      secret).1 = none ∧
    K1 ∉ (from_token mac deser now
      (b64encode claim_raw ++ '.' :: b64encode (mac K1.bytes claim_raw))
      secret).2.keys := by
  have hval : anyKeyValid mac claim_raw (mac K1.bytes claim_raw)
      (pruneFront now secret.keys) = false := by
    apply anyKeyValid_eq_false
    intro k hkmem heq
    have hkeys : k ∈ secret.keys :=
      (pruneFront_suffix now secret.keys).subset hkmem
    have hkexp : now < k.expires :=
      pruneFront_unexpired now secret.keys hsorted k hkmem
    exact hfresh k hkeys hkexp (hinj _ _ _ heq)
  have hK1 : K1 ∉ pruneFront now secret.keys := fun hmem =>
    absurd (pruneFront_unexpired now secret.keys hsorted K1 hmem) (by omega)
  rw [from_token_wf mac deser now claim_raw (mac K1.bytes claim_raw) secret
    hcr hsr]
  constructor
  · cases hd : deser claim_raw with
    | none => simp only [hd]
    | some claim =>
        simp only [hd]
        by_cases hce : claim.expires < now
        · rw [if_pos hce]
        · rw [if_neg hce, hval]
          simp
  · cases hd : deser claim_raw with
    | none => simpa only [hd] using hK1
    | some claim =>
        simp only [hd]
        by_cases hce : claim.expires < now
        · rw [if_pos hce]
          exact hK1
        · rw [if_neg hce, hval]
          simpa using hK1

/-- Claim C8 witness. -/
theorem pruned_key_rejected_witness :
    (from_token cMacApp cDeser 10
      (b64encode [1, 15, 0] ++ '.' :: b64encode (cMacApp [7] [1, 15, 0]))
      { keys := [{ bytes := [7], expires := 10 },
                 { bytes := [8], expires := 20 }] }).1 = none ∧
    ({ bytes := [7], expires := 10 } : Key) ∉
      (from_token cMacApp cDeser 10
        (b64encode [1, 15, 0] ++ '.' :: b64encode (cMacApp [7] [1, 15, 0]))
        { keys := [{ bytes := [7], expires := 10 },
                   { bytes := [8], expires := 20 }] }).2.keys :=
  pruned_key_rejected cMacApp cDeser 10 { bytes := [7], expires := 10 }
    [1, 15, 0]
    { keys := [{ bytes := [7], expires := 10 },
               { bytes := [8], expires := 20 }] }
    (by decide) (by decide) (by decide) (by decide)
    (fun k1 k2 m h => List.append_cancel_right h) (by decide)

/-- Claim C10: a freshly created store (`Secret::new`, empty key sequence)
rejects every token string: with no retained key no signature validates, so
`from_token` never succeeds before the first encode mints a key. -/
theorem empty_store_rejects (mac : List Nat → List Nat → List Nat)
    (deser : List Nat → Option Claim) (now : Nat) (tok : List Char) :
    (from_token mac deser now tok Secret.new).1 = none := by
  cases h : (from_token mac deser now tok Secret.new).1 with
  | none => rfl
  | some c =>
      obtain ⟨-, claim_raw, signature_raw, hv⟩ := from_token_some h
      rw [show pruneFront now Secret.new.keys = [] from rfl] at hv
      simp [anyKeyValid] at hv

/-- Claim C3 counterexample: `from_token` does mutate the store — on a
well-formed token it removes the expired front key (expiry 5 ≤ now = 10),
refuting "only reads the key sequence and leaves it unchanged". -/
theorem decode_prunes_cex :
    (from_token cMac cDeser 10 ['A', 'A', 'A', 'A', '.', 'A', 'A', 'A', 'A']
        { keys := [{ bytes := [1], expires := 5 }] }).2 ≠
      ({ keys := [{ bytes := [1], expires := 5 }] } : Secret) := by
  decide

/-- Claim C3 (amended): `from_token` never adds a key; it either leaves the
sequence unchanged (malformed token) or replaces it by the prune of its
front, so the resulting sequence is always a suffix of the original. -/
theorem decode_only_prunes (mac : List Nat → List Nat → List Nat)
    (deser : List Nat → Option Claim) (now : Nat) (tok : List Char)
    (secret : Secret) :
    ((from_token mac deser now tok secret).2 = secret ∨
      (from_token mac deser now tok secret).2 =
        { keys := pruneFront now secret.keys }) ∧
    (from_token mac deser now tok secret).2.keys <:+ secret.keys := by
  refine ⟨from_token_store mac deser now tok secret, ?_⟩
  rcases from_token_store mac deser now tok secret with h | h
  · rw [h]
  · rw [h]
    exact pruneFront_suffix now secret.keys

/-- Claim C4 counterexample: `to_token`, about to produce a signature at
`now = 10` over a store whose only key expired at 5, does not remove that
key — it appends a fresh key behind it — refuting "to_token first removes
from the front every key whose expires is ≤ the current time". -/
theorem encode_no_prune_cex :
    (to_token cMac cSer cRng 10 { id := 1, expires := 20, is_admin := false }
        { keys := [{ bytes := [1], expires := 5 }] }).2.keys =
      [{ bytes := [1], expires := 5 },
       Key.generate cRng (10 + 2 * TOKEN_DURATION)] ∧
    ({ bytes := [1], expires := 5 } : Key).expires ≤ 10 := by
  decide

/-- Claim C4 (amended): `to_token` never removes keys — it leaves the
sequence unchanged or appends one freshly generated key at the back; the
removal of expired keys happens in the prune loop of `from_token` instead. -/
theorem encode_never_removes (mac : List Nat → List Nat → List Nat)
    (ser : Claim → List Nat) (rng : Nat → Nat) (now : Nat)
    (claim : Claim) (secret : Secret) :
    (to_token mac ser rng now claim secret).2.keys = secret.keys ∨
    (to_token mac ser rng now claim secret).2.keys =
      secret.keys ++ [Key.generate rng (now + 2 * TOKEN_DURATION)] := by
  rw [to_token_snd]
  show rotate rng now claim secret.keys = _ ∨
    rotate rng now claim secret.keys = _
  rw [rotate_eq]
  cases h : secret.keys.getLast? with
  | none => exact Or.inr rfl
  | some k =>
      by_cases hk : k.expires < claim.expires
      · right
        simp [hk]
      · left
        simp [hk]

/-- Claim C6: `to_token` mints a new key exactly when the store is empty or
the expiry of the back key is below that of the claim; the new key has the 32 bytes
drawn from the random source and expiry `now + 2 * TOKEN_DURATION`
(`TOKEN_DURATION = 172800`, window `345600`), is appended at the back, and
the back key is the one that signs. -/
theorem to_token_rotation_spec (mac : List Nat → List Nat → List Nat)
    (ser : Claim → List Nat) (rng : Nat → Nat) (now e : Nat)
    (claim : Claim) (secret : Secret) :
    ((to_token mac ser rng now claim secret).2.keys =
      match secret.keys.getLast? with
      | none => secret.keys ++ [Key.generate rng (now + 2 * TOKEN_DURATION)]
      | some k =>
          if k.expires < claim.expires then
            secret.keys ++ [Key.generate rng (now + 2 * TOKEN_DURATION)]
          else secret.keys) ∧
    ((to_token mac ser rng now claim secret).1 =
      ((to_token mac ser rng now claim secret).2.keys.getLast?).map fun k =>
        b64encode (ser claim) ++ '.' :: b64encode (mac k.bytes (ser claim))) ∧
    (Key.generate rng e).bytes.length = 32 ∧
    (Key.generate rng e).expires = e ∧
    TOKEN_DURATION = 172800 ∧
    2 * TOKEN_DURATION = 345600 := by
  refine ⟨?_, ?_, ?_, rfl, by decide, by decide⟩
  · rw [to_token_snd]
    exact rotate_eq rng now claim secret.keys
  · rw [to_token_fst, to_token_snd]
  · simp [Key.generate]

/-- Claim C7 counterexample: a claim whose `expires` exceeds
`now + 2 * TOKEN_DURATION` is signed by a key with a strictly smaller
expiry — the minted key gets `now + 2 * TOKEN_DURATION` with no re-check —
refuting "the signing key expiry is ≥ the claim expiry for every
Claim". -/
theorem claim_outlives_key_cex :
    (to_token cMac cSer cRng 10
        { id := 1, expires := 345612, is_admin := false } Secret.new).2.keys =
      [Key.generate cRng (10 + 2 * TOKEN_DURATION)] ∧
    (Key.generate cRng (10 + 2 * TOKEN_DURATION)).expires <
      ({ id := 1, expires := 345612, is_admin := false } : Claim).expires ∧
    (to_token cMac cSer cRng 10
        { id := 1, expires := 345612, is_admin := false } Secret.new).1.isSome =
      true := by
  decide

/-- Claim C7 (amended): provided the `expires` of the claim is at most
`now + 2 * TOKEN_DURATION` (true of every claim the program constructs,
since sign-in sets `expires = now + TOKEN_DURATION`), the key that ends up
at the back — the one that signs — has expiry ≥ that of the claim. -/
theorem signing_key_covers (mac : List Nat → List Nat → List Nat)
    (ser : Claim → List Nat) (rng : Nat → Nat) (now : Nat)
    (claim : Claim) (secret : Secret)
    (h : claim.expires ≤ now + 2 * TOKEN_DURATION) :
    ∀ k, (to_token mac ser rng now claim secret).2.keys.getLast? = some k →
      claim.expires ≤ k.expires := by
  intro k hk
  rw [to_token_snd] at hk
  obtain ⟨k', hk', hor⟩ := rotate_getLast rng now claim secret.keys
  have hkk : k' = k := by
    have := hk'.symm.trans hk
    exact Option.some.inj this
  subst hkk
  rcases hor with h1 | h1
  · exact h1
  · rw [h1]
    show claim.expires ≤ now + 2 * TOKEN_DURATION
    exact h

/-- Claim C7 witness. -/
theorem signing_key_covers_witness :
    ({ id := 1, expires := 20, is_admin := false } : Claim).expires ≤
      (Key.generate cRng (10 + 2 * TOKEN_DURATION)).expires :=
  signing_key_covers cMac cSer cRng 10
    { id := 1, expires := 20, is_admin := false } Secret.new (by decide)
    (Key.generate cRng (10 + 2 * TOKEN_DURATION)) (by decide)
